import Mathlib

/-!
Verification of `scripts/apply_i18n_auto.py`, an i18n checker that scans a
fixed list of source files for hardcoded double-quoted string literals,
reports whether each file contains the capability marker `useTranslation`,
and suggests replacements from a static translation table.

File contents are modelled as `List Char` (Python reads files as decoded
text, so one `Char` per Unicode scalar). The file system is a partial map
from paths to contents, threaded explicitly through every operation so that
read-only behaviour is a provable statement rather than an assumption.
-/

namespace I18n

/-- A file system: maps a path to its contents when the file exists. -/
abbrev FS := String → Option (List Char)

/-- Substring `needle` stands at the front of `hay`. -/
def leadsWith : List Char → List Char → Bool
  | [], _ => true
  | _ :: _, [] => false
  | a :: as, b :: bs => a == b && leadsWith as bs

/-- Python's `needle in hay` substring containment over characters. -/
def containsSub (needle : List Char) : List Char → Bool
  | [] => needle.isEmpty
  | c :: rest => leadsWith needle (c :: rest) || containsSub needle rest

/-- The capability marker the script looks for: `'useTranslation' in content`. -/
def marker : List Char := "useTranslation".toList

/-- After an opening double quote, consume the interior matched by the regex
`[^"\\]*(\\.[^"\\]*)*` followed by a closing `"`. Returns the interior (group 1
of the pattern) and the remainder after the closing quote, or `none` when no
such match exists (unterminated literal, or a backslash followed by a newline,
which `.` does not match in Python's default mode). -/
def quotedTail : List Char → Option (List Char × List Char)
  | [] => none
  | c :: rest =>
    if c = '"' then some ([], rest)
    else if c = '\\' then
      match rest with
      | [] => none
      | d :: rest2 =>
        if d = '\n' then none
        else
          match quotedTail rest2 with
          | none => none
          | some (inner, r) => some (c :: d :: inner, r)
    else
      match quotedTail rest with
      | none => none
      | some (inner, r) => some (c :: inner, r)

/-- Fuel-indexed scanner: `re.findall(r'"([^"\\]*(\\.[^"\\]*)*)"', content)`
projected to group 1. At each position, a match is attempted when the current
character is `"`; on success scanning resumes after the match (non-overlapping),
on failure at the next position. The fuel only serves termination; any fuel of
at least the list's length computes the same result. -/
def scanGo : Nat → List Char → List (List Char)
  | _, [] => []
  | 0, _ :: _ => []
  | fuel + 1, c :: rest =>
    if c = '"' then
      match quotedTail rest with
      | some (inner, r) => inner :: scanGo fuel r
      | none => scanGo fuel rest
    else scanGo fuel rest

/-- All raw candidate interiors extracted from the content, in match order. -/
def findRaw (content : List Char) : List (List Char) :=
  scanGo content.length content

/-- Does the list start with the character `c` (Python `startswith` on a
one-character needle)? -/
def startsWithChar (c : Char) : List Char → Bool
  | [] => false
  | d :: _ => d == c

/-- The filter of `find_hardcoded_strings`: interior longer than 2 characters,
not starting with `/` and not starting with `#`. -/
def isUiString (s : List Char) : Bool :=
  decide (2 < s.length) && !startsWithChar '/' s && !startsWithChar '#' s

/-- Re-wrap an interior in double quotes: Python's `f'"{string}"'`. -/
def wrap (s : List Char) : List Char := '"' :: (s ++ ['"'])

/-- `find_hardcoded_strings` on the file's contents: extract raw candidates,
filter, re-wrap in quotes, and deduplicate (`list(set(ui_strings))`; the set's
iteration order is unspecified, modelled here by one concrete order). -/
def find_hardcoded_strings (content : List Char) : List (List Char) :=
  (((findRaw content).filter isUiString).map wrap).dedup

/-- The `TRANSLATIONS` dictionary: quoted literal text to replacement
expression. Keys include their surrounding double quotes, verbatim. -/
def TRANSLATIONS : List (List Char × List Char) :=
  [ ("\"Welcome Back\"".toList, "t('auth.welcomeBack')".toList),
    ("\"Sign in to continue to Patrick Travel Services\"".toList, "t('auth.signInToContinue')".toList),
    ("\"Create Account\"".toList, "t('auth.createAccount')".toList),
    ("\"Sign up to get started with Patrick Travel Services\"".toList, "t('auth.signUpToGetStarted')".toList),
    ("\"Email\"".toList, "t('auth.email')".toList),
    ("\"Password\"".toList, "t('auth.password')".toList),
    ("\"Confirm Password\"".toList, "t('auth.confirmPassword')".toList),
    ("\"First Name\"".toList, "t('auth.firstName')".toList),
    ("\"Last Name\"".toList, "t('auth.lastName')".toList),
    ("\"Phone (Optional)\"".toList, "t('auth.phoneOptional')".toList),
    ("\"Sign In\"".toList, "t('auth.signIn')".toList),
    ("\"Sign Up\"".toList, "t('auth.signUp')".toList),
    ("\"Remember me\"".toList, "t('auth.rememberMe')".toList),
    ("\"Forgot Password?\"".toList, "t('auth.forgotPassword')".toList),
    ("\"Don't have an account? \"".toList, "t('auth.dontHaveAccount') + ' '".toList),
    ("\"Already have an account? \"".toList, "t('auth.alreadyHaveAccount') + ' '".toList),
    ("\"Total Cases\"".toList, "t('dashboard.totalCases')".toList),
    ("\"Active Cases\"".toList, "t('dashboard.activeCases')".toList),
    ("\"Pending Documents\"".toList, "t('dashboard.pendingDocuments')".toList),
    ("\"Unread Messages\"".toList, "t('dashboard.unreadMessages')".toList),
    ("\"Quick Actions\"".toList, "t('dashboard.quickActions')".toList),
    ("\"Submit New Case\"".toList, "t('dashboard.submitNewCase')".toList),
    ("\"Upload Document\"".toList, "t('dashboard.uploadDocument')".toList),
    ("\"View FAQs\"".toList, "t('dashboard.viewFAQs')".toList),
    ("\"Search by reference number\"".toList, "t('cases.searchByReference')".toList),
    ("\"No cases found\"".toList, "t('cases.noCasesFound')".toList),
    ("\"Message Advisor\"".toList, "t('cases.messageAdvisor')".toList),
    ("\"Status History\"".toList, "t('cases.statusHistory')".toList),
    ("\"Loading...\"".toList, "t('common.loading')".toList),
    ("\"Success\"".toList, "t('common.success')".toList),
    ("\"Error\"".toList, "t('common.error')".toList),
    ("\"OK\"".toList, "t('common.ok')".toList),
    ("\"Cancel\"".toList, "t('common.cancel')".toList),
    ("\"Save\"".toList, "t('common.save')".toList),
    ("\"Delete\"".toList, "t('common.delete')".toList) ]

/-- Exact-match association lookup, as Python's `s in TRANSLATIONS` followed by
`TRANSLATIONS[s]` (dict keys are distinct, so association lookup agrees). -/
def lookupT (s : List Char) : List (List Char × List Char) → Option (List Char)
  | [] => none
  | (k, v) :: rest => if s = k then some v else lookupT s rest

/-- One line of the report printed for a file. -/
inductive OutLine where
  | header (p : String)
  | missingImportLine
  | missingHookLine
  | importedOk
  | foundCount (n : Nat)
  | suggestion (cand repl : List Char)
deriving DecidableEq

/-- The capability-marker finding lines of `check_file`. -/
def markerReport (content : List Char) : List OutLine :=
  if containsSub marker content then [OutLine.importedOk]
  else [OutLine.missingImportLine, OutLine.missingHookLine]

/-- The candidate-count and suggestion lines of `check_file`: nothing when no
candidate was found (`if strings:`); otherwise the count, then for the first
five candidates those having an exact key in `TRANSLATIONS`. -/
def stringsReport (strs : List (List Char)) : List OutLine :=
  if strs.isEmpty then []
  else
    OutLine.foundCount strs.length ::
      (strs.take 5).filterMap (fun s => Option.map (OutLine.suggestion s) (lookupT s TRANSLATIONS))

/-- `check_file`: silently skip a nonexistent path; otherwise print the header,
the marker finding(s), and the candidate report. The file system is threaded
through and returned: the function only reads. -/
def checkFile (fs : FS) (p : String) : FS × List OutLine :=
  match fs p with
  | none => (fs, [])
  | some content =>
      (fs, OutLine.header p ::
        (markerReport content ++ stringsReport (find_hardcoded_strings content)))

/-- The main loop: `for file in files: check_file(file)`. -/
def runAll (fs : FS) : List String → FS × List OutLine
  | [] => (fs, [])
  | p :: ps =>
    let r1 := checkFile fs p
    let r2 := runAll r1.1 ps
    (r2.1, r1.2 ++ r2.2)

/-- The hardcoded file list of the script. -/
def files : List String :=
  [ "features/auth/screens/RegisterScreen.tsx",
    "features/auth/screens/ForgotPasswordScreen.tsx",
    "app/(tabs)/index.tsx",
    "app/(tabs)/cases.tsx",
    "app/(tabs)/documents.tsx",
    "app/(tabs)/messages.tsx",
    "app/(tabs)/profile.tsx" ]

/-- How many times `s` occurs as an element of `l`. -/
def countOcc (s : List Char) (l : List (List Char)) : Nat :=
  (l.filter (fun t => t = s)).length

/-- Contents used by the end-to-end scenario of the spec. -/
def c1Content : List Char :=
  "const x = \"Welcome Back\"; const y = \"Welcome Back\";".toList

/-- A file system holding exactly one file, with the scenario contents. -/
def c1Fs : FS := fun q =>
  if q = "features/auth/screens/RegisterScreen.tsx" then some c1Content else none

/-- A file system holding one empty file. -/
def emptyFileFs : FS := fun q => if q = "app/(tabs)/index.tsx" then some [] else none

/-- A file system holding one file whose only candidate has a trailing space. -/
def trailingSpaceFs : FS := fun q =>
  if q = "app/(tabs)/cases.tsx" then some "x = \"Welcome Back \";".toList else none

/-- The empty file system. -/
def noneFs : FS := fun _ => none

/-- Contents exercising the filter on several candidate shapes. -/
def filterContent : List Char :=
  "a = \"ab\"; b = \"/x/y\"; c = \"#id\"; d = \"hello\";".toList

/-- The quoted literal of the escaped-quote scenario, outer quotes included. -/
def escLit : List Char := "\"She said \\\"hi\\\"\"".toList

/-- The interior the scanner must extract from `escLit`. -/
def escInterior : List Char := "She said \\\"hi\\\"".toList

/-- `escLit` without its opening quote: the input on which the interior matcher runs. -/
def escBody : List Char := "She said \\\"hi\\\"\"".toList

/-- The plain characters of `escLit` before the first escape. -/
def escA : List Char := "She said ".toList

/-- The plain characters of `escLit` between the two escaped quotes. -/
def escB : List Char := "hi".toList

end I18n

namespace I18n

theorem quotedTail_length (l : List Char) :
    ∀ i r, quotedTail l = some (i, r) → r.length < l.length := by
  induction l using quotedTail.induct with
  | case1 => intro i r h; rw [quotedTail.eq_def] at h; simp at h
  | case2 rest =>
      intro i r h
      rw [quotedTail.eq_def] at h
      simp at h
      obtain ⟨-, h2⟩ := h
      subst h2
      simp
  | case3 hb => intro i r h; rw [quotedTail.eq_def] at h; simp at h
  | case4 rest hb => intro i r h; rw [quotedTail.eq_def] at h; simp at h
  | case5 c rest hc hnone hb ih =>
      intro i r h
      rw [quotedTail.eq_def] at h
      simp [hc, hnone] at h
  | case6 c rest hc inner rr hsome hb ih =>
      intro i r h
      rw [quotedTail.eq_def] at h
      simp [hc, hsome] at h
      obtain ⟨-, h2⟩ := h
      subst h2
      have := ih inner rr hsome
      simp only [List.length_cons]
      omega
  | case7 c rest hq hb hnone ih =>
      intro i r h
      rw [quotedTail.eq_def] at h
      simp [hq, hb, hnone] at h
  | case8 c rest hq hb inner rr hsome ih =>
      intro i r h
      rw [quotedTail.eq_def] at h
      simp [hq, hb, hsome] at h
      obtain ⟨-, h2⟩ := h
      subst h2
      have := ih inner rr hsome
      simp only [List.length_cons]
      omega

theorem quotedTail_close (rest : List Char) : quotedTail ('"' :: rest) = some ([], rest) := by
  rw [quotedTail.eq_def]
  simp

theorem quotedTail_plain_some (c : Char) (rest i r : List Char)
    (hq : c ≠ '"') (hb : c ≠ '\\') (h : quotedTail rest = some (i, r)) :
    quotedTail (c :: rest) = some (c :: i, r) := by
  rw [quotedTail.eq_def]
  simp [hq, hb, h]

theorem quotedTail_esc_some (d : Char) (rest i r : List Char)
    (hd : d ≠ '\n') (h : quotedTail rest = some (i, r)) :
    quotedTail ('\\' :: d :: rest) = some ('\\' :: d :: i, r) := by
  rw [quotedTail.eq_def]
  simp [hd, h]

theorem scanGo_nil (f : Nat) : scanGo f [] = [] := by
  cases f <;> rw [scanGo.eq_def]

theorem scanGo_succ_cons (f : Nat) (c : Char) (rest : List Char) :
    scanGo (f + 1) (c :: rest) =
      if c = '"' then
        match quotedTail rest with
        | some (inner, r) => inner :: scanGo f r
        | none => scanGo f rest
      else scanGo f rest := by
  rw [scanGo.eq_def]

theorem scanGo_stable (f1 : Nat) :
    ∀ f2 l, l.length ≤ f1 → l.length ≤ f2 → scanGo f1 l = scanGo f2 l := by
  induction f1 with
  | zero =>
      intro f2 l h1 _
      have hl : l = [] := List.eq_nil_of_length_eq_zero (Nat.le_zero.mp h1)
      subst hl
      rw [scanGo_nil, scanGo_nil]
  | succ f ih =>
      intro f2 l h1 h2
      cases l with
      | nil => rw [scanGo_nil, scanGo_nil]
      | cons c rest =>
        cases f2 with
        | zero => simp at h2
        | succ f2' =>
          have hr1 : rest.length ≤ f := by simpa using h1
          have hr2 : rest.length ≤ f2' := by simpa using h2
          rw [scanGo_succ_cons, scanGo_succ_cons]
          by_cases hq : c = '"'
          · subst hq
            cases hqt : quotedTail rest with
            | none =>
                simp only [if_pos rfl]
                exact ih f2' rest hr1 hr2
            | some p =>
              obtain ⟨i, r⟩ := p
              have hlen := quotedTail_length rest i r hqt
              have hr1' : r.length ≤ f := Nat.le_trans (Nat.le_of_lt hlen) hr1
              have hr2' : r.length ≤ f2' := Nat.le_trans (Nat.le_of_lt hlen) hr2
              simp only [if_pos rfl]
              rw [ih f2' r hr1' hr2']
              simp
          · simp only [if_neg hq]
            exact ih f2' rest hr1 hr2

theorem findRaw_nil : findRaw [] = [] := by
  simp [findRaw, scanGo_nil]

theorem findRaw_cons_ne (c : Char) (rest : List Char) (hq : c ≠ '"') :
    findRaw (c :: rest) = findRaw rest := by
  simp only [findRaw, List.length_cons]
  rw [scanGo_succ_cons, if_neg hq]

theorem findRaw_quote_some (rest i r : List Char) (h : quotedTail rest = some (i, r)) :
    findRaw ('"' :: rest) = i :: findRaw r := by
  have hlen := quotedTail_length rest i r h
  simp only [findRaw, List.length_cons]
  rw [scanGo_succ_cons, if_pos rfl, h]
  show i :: scanGo rest.length r = i :: scanGo r.length r
  rw [scanGo_stable rest.length r.length r (Nat.le_of_lt hlen) (Nat.le_refl _)]

theorem findRaw_quote_none (rest : List Char) (h : quotedTail rest = none) :
    findRaw ('"' :: rest) = findRaw rest := by
  simp only [findRaw, List.length_cons]
  rw [scanGo_succ_cons, if_pos rfl, h]

theorem length_wrap (s : List Char) : (wrap s).length = s.length + 2 := by
  simp [wrap]

theorem wrap_inj (a b : List Char) (h : wrap a = wrap b) : a = b := by
  simp only [wrap, List.cons.injEq, true_and] at h
  have hl : a.length = b.length := by
    have := congrArg List.length h
    simpa using this
  exact (List.append_inj_left h hl)

theorem mem_find_iff (content s : List Char) :
    s ∈ find_hardcoded_strings content ↔
      ∃ raw, raw ∈ findRaw content ∧ isUiString raw = true ∧ s = wrap raw := by
  simp only [find_hardcoded_strings, List.mem_dedup, List.mem_map, List.mem_filter]
  constructor
  · rintro ⟨raw, ⟨h1, h2⟩, h3⟩
    exact ⟨raw, h1, h2, h3.symm⟩
  · rintro ⟨raw, h1, h2, h3⟩
    exact ⟨raw, ⟨h1, h2⟩, h3.symm⟩

theorem mem_find_length (content s : List Char)
    (h : s ∈ find_hardcoded_strings content) : 4 < s.length := by
  obtain ⟨raw, -, h2, h3⟩ := (mem_find_iff content s).mp h
  subst h3
  rw [length_wrap]
  simp only [isUiString, Bool.and_eq_true, decide_eq_true_eq] at h2
  omega

theorem lookupT_mem (s v : List Char) :
    ∀ T, lookupT s T = some v → (s, v) ∈ T := by
  intro T
  induction T with
  | nil => intro h; simp [lookupT] at h
  | cons kv rest ih =>
    obtain ⟨k, w⟩ := kv
    intro h
    simp only [lookupT] at h
    by_cases hs : s = k
    · subst hs
      rw [if_pos rfl] at h
      have hw : w = v := by injection h
      subst hw
      exact List.mem_cons_self _ _
    · rw [if_neg hs] at h
      exact List.mem_cons_of_mem _ (ih h)

theorem lookupT_eq_none (s : List Char) :
    ∀ T, (∀ kv ∈ T, s ≠ kv.1) → lookupT s T = none := by
  intro T
  induction T with
  | nil => intro _; rfl
  | cons kv rest ih =>
    obtain ⟨k, w⟩ := kv
    intro h
    have hk : s ≠ k := h (k, w) (List.mem_cons_self _ _)
    simp only [lookupT, if_neg hk]
    exact ih (fun p hp => h p (List.mem_cons_of_mem _ hp))

theorem mem_stringsReport_sugg (L : List (List Char)) (s r : List Char) :
    OutLine.suggestion s r ∈ stringsReport L ↔
      s ∈ L.take 5 ∧ lookupT s TRANSLATIONS = some r := by
  unfold stringsReport
  by_cases hL : L.isEmpty
  · have : L = [] := List.isEmpty_iff.mp hL
    subst this
    simp
  · simp only [hL, if_neg, Bool.false_eq_true, not_false_iff, List.mem_cons]
    constructor
    · rintro (h | h)
      · exact absurd h (by simp)
      · obtain ⟨a, ha, hmap⟩ := List.mem_filterMap.mp h
        obtain ⟨v, hv, heq⟩ := Option.map_eq_some'.mp hmap
        obtain ⟨rfl, rfl⟩ : a = s ∧ v = r := by
          constructor <;> cases heq <;> rfl
        exact ⟨ha, hv⟩
    · rintro ⟨h1, h2⟩
      right
      exact List.mem_filterMap.mpr ⟨s, h1, by rw [h2]; rfl⟩

theorem mem_stringsReport_count (L : List (List Char)) (n : Nat) :
    OutLine.foundCount n ∈ stringsReport L ↔ L ≠ [] ∧ n = L.length := by
  unfold stringsReport
  by_cases hL : L.isEmpty
  · have : L = [] := List.isEmpty_iff.mp hL
    subst this
    simp
  · have hne : L ≠ [] := by
      intro hnil
      subst hnil
      simp at hL
    simp only [hL, if_neg, Bool.false_eq_true, not_false_iff, List.mem_cons]
    constructor
    · rintro (h | h)
      · obtain rfl : n = L.length := by cases h; rfl
        exact ⟨hne, rfl⟩
      · obtain ⟨a, -, hmap⟩ := List.mem_filterMap.mp h
        obtain ⟨v, -, heq⟩ := Option.map_eq_some'.mp hmap
        cases heq
    · rintro ⟨-, rfl⟩
      left
      rfl

theorem stringsReport_shape (L : List (List Char)) (l : OutLine)
    (h : l ∈ stringsReport L) :
    (∃ n, l = OutLine.foundCount n) ∨ ∃ s r, l = OutLine.suggestion s r := by
  unfold stringsReport at h
  by_cases hL : L.isEmpty
  · simp [hL] at h
  · simp only [hL, if_neg, Bool.false_eq_true, not_false_iff, List.mem_cons] at h
    rcases h with h | h
    · exact Or.inl ⟨L.length, h⟩
    · obtain ⟨a, -, hmap⟩ := List.mem_filterMap.mp h
      obtain ⟨v, -, heq⟩ := Option.map_eq_some'.mp hmap
      exact Or.inr ⟨a, v, heq.symm⟩

theorem markerReport_missing (content : List Char)
    (h : containsSub marker content = false) :
    markerReport content = [OutLine.missingImportLine, OutLine.missingHookLine] := by
  simp [markerReport, h]

theorem markerReport_present (content : List Char)
    (h : containsSub marker content = true) :
    markerReport content = [OutLine.importedOk] := by
  simp [markerReport, h]

theorem checkFile_exists (fs : FS) (p : String) (content : List Char)
    (h : fs p = some content) :
    checkFile fs p =
      (fs, OutLine.header p ::
        (markerReport content ++ stringsReport (find_hardcoded_strings content))) := by
  simp [checkFile, h]

theorem checkFile_missing (fs : FS) (p : String) (h : fs p = none) :
    checkFile fs p = (fs, []) := by
  simp [checkFile, h]

theorem checkFile_fst (fs : FS) (p : String) : (checkFile fs p).1 = fs := by
  cases h : fs p <;> simp [checkFile, h]

theorem foundCount_notin_marker (content : List Char) (n : Nat) :
    OutLine.foundCount n ∉ markerReport content := by
  unfold markerReport
  split <;> simp

theorem sugg_notin_marker (content : List Char) (s r : List Char) :
    OutLine.suggestion s r ∉ markerReport content := by
  unfold markerReport
  split <;> simp

theorem missing_notin_strings (L : List (List Char)) :
    OutLine.missingImportLine ∉ stringsReport L ∧ OutLine.missingHookLine ∉ stringsReport L := by
  constructor
  · intro hmem
    rcases stringsReport_shape L _ hmem with ⟨n, hn⟩ | ⟨s, r, hsr⟩ <;> simp_all
  · intro hmem
    rcases stringsReport_shape L _ hmem with ⟨n, hn⟩ | ⟨s, r, hsr⟩ <;> simp_all

theorem quotedTail_clean_append (a : List Char) (h : ∀ c ∈ a, c ≠ '"' ∧ c ≠ '\\') :
    ∀ l i r, quotedTail l = some (i, r) → quotedTail (a ++ l) = some (a ++ i, r) := by
  induction a with
  | nil => intro l i r hl; simpa using hl
  | cons c cs ih =>
    intro l i r hl
    have hc := h c (List.mem_cons_self c cs)
    have hrec := ih (fun d hd => h d (List.mem_cons_of_mem c hd)) l i r hl
    have := quotedTail_plain_some c (cs ++ l) (cs ++ i) r hc.1 hc.2 hrec
    simpa using this

theorem escLit_parse (s : List Char) :
    quotedTail (escBody ++ s) = some (escInterior, s) := by
  have h1 : escBody = escA ++ ('\\' :: '"' :: (escB ++ ('\\' :: '"' :: ['"']))) := by decide
  have h2 : escInterior = escA ++ ('\\' :: '"' :: (escB ++ ['\\', '"'])) := by decide
  have step0 : quotedTail ('"' :: s) = some ([], s) := quotedTail_close s
  have step1 : quotedTail ('\\' :: '"' :: '"' :: s) = some ('\\' :: '"' :: [], s) :=
    quotedTail_esc_some '"' ('"' :: s) [] s (by decide) step0
  have step2 : quotedTail (escB ++ '\\' :: '"' :: '"' :: s)
      = some (escB ++ '\\' :: '"' :: [], s) :=
    quotedTail_clean_append escB (by decide) _ _ _ step1
  have step3 : quotedTail ('\\' :: '"' :: (escB ++ '\\' :: '"' :: '"' :: s))
      = some ('\\' :: '"' :: (escB ++ '\\' :: '"' :: []), s) :=
    quotedTail_esc_some '"' _ _ _ (by decide) step2
  have step4 := quotedTail_clean_append escA (by decide) _ _ _ step3
  rw [h1, h2]
  simp only [List.append_assoc, List.cons_append, List.nil_append] at step4 ⊢
  exact step4

theorem countOcc_zero_of_notin (s : List Char) :
    ∀ l, s ∉ l → countOcc s l = 0 := by
  intro l
  induction l with
  | nil => intro _; rfl
  | cons a t ih =>
    intro hs
    have ha : ¬(a = s) := fun hh => hs (hh ▸ List.mem_cons_self a t)
    simp only [countOcc, List.filter_cons, decide_eq_true_eq] at *
    simp [ha, ih (fun hm => hs (List.mem_cons_of_mem a hm))]

theorem countOcc_eq_one (l : List (List Char)) (hnd : l.Nodup) :
    ∀ s ∈ l, countOcc s l = 1 := by
  induction l with
  | nil => intro s hs; cases hs
  | cons a t ih =>
    intro s hs
    obtain ⟨hnotin, hndt⟩ := List.nodup_cons.mp hnd
    rcases List.mem_cons.mp hs with rfl | hst
    · simp only [countOcc, List.filter_cons, decide_eq_true_eq]
      have h0 := countOcc_zero_of_notin s t hnotin
      simp only [countOcc] at h0
      simp [h0]
    · have ha : ¬(a = s) := fun hh => hnotin (hh ▸ hst)
      have h1 := ih hndt s hst
      simp only [countOcc, List.filter_cons, decide_eq_true_eq] at *
      simp [ha, h1]

theorem runAll_nil (fs : FS) : runAll fs [] = (fs, []) := rfl

theorem runAll_cons (fs : FS) (p : String) (ps : List String) :
    runAll fs (p :: ps) =
      ((runAll (checkFile fs p).1 ps).1,
        (checkFile fs p).2 ++ (runAll (checkFile fs p).1 ps).2) := rfl

/-- Claim C1: on a file whose full text is
`const x = "Welcome Back"; const y = "Welcome Back";` (which lacks the marker
`useTranslation`), `check_file` prints both marker-missing lines, a
distinct-candidate count of 1, and the suggestion pairing `"Welcome Back"`
with `t('auth.welcomeBack')`. -/
theorem c1_end_to_end_scenario :
    OutLine.missingImportLine ∈ (checkFile c1Fs "features/auth/screens/RegisterScreen.tsx").2 ∧
    OutLine.missingHookLine ∈ (checkFile c1Fs "features/auth/screens/RegisterScreen.tsx").2 ∧
    OutLine.foundCount 1 ∈ (checkFile c1Fs "features/auth/screens/RegisterScreen.tsx").2 ∧
    OutLine.suggestion ("\"Welcome Back\"".toList) ("t('auth.welcomeBack')".toList) ∈
      (checkFile c1Fs "features/auth/screens/RegisterScreen.tsx").2 := by
  decide

/-- Claim C2, counterexample: a file that exists but contains no candidate at
all (here: empty contents) produces a report with no count line whatsoever —
the claim's unconditional "emits ... the total count" fails. -/
theorem c2_count_line_missing_for_empty_file :
    emptyFileFs "app/(tabs)/index.tsx" = some [] ∧
    (checkFile emptyFileFs "app/(tabs)/index.tsx").2 =
      [OutLine.header "app/(tabs)/index.tsx",
       OutLine.missingImportLine, OutLine.missingHookLine] := by
  constructor
  · decide
  · decide

/-- Claim C2 as amended: for every existing input file the report emits the
file path; a count line appears exactly when at least one distinct filtered
candidate exists, and then carries exactly the distinct-candidate total; a
suggestion line for candidate `s` with replacement `r` appears exactly when
`s` is among the first five candidates in iteration order and is an exact key
of the table mapped to `r` (candidates not in the table are silently
omitted). -/
theorem c2_report_structure (fs : FS) (p : String) (content : List Char)
    (h : fs p = some content) :
    OutLine.header p ∈ (checkFile fs p).2 ∧
    (∀ n, OutLine.foundCount n ∈ (checkFile fs p).2 ↔
      (find_hardcoded_strings content ≠ [] ∧ n = (find_hardcoded_strings content).length)) ∧
    (∀ s r, OutLine.suggestion s r ∈ (checkFile fs p).2 ↔
      (s ∈ (find_hardcoded_strings content).take 5 ∧
        lookupT s TRANSLATIONS = some r)) := by
  rw [checkFile_exists fs p content h]
  refine ⟨List.mem_cons_self _ _, fun n => ?_, fun s r => ?_⟩
  · constructor
    · intro hmem
      rcases List.mem_cons.mp hmem with h1 | h1
      · cases h1
      rcases List.mem_append.mp h1 with h2 | h2
      · exact absurd h2 (foundCount_notin_marker content n)
      · exact (mem_stringsReport_count _ n).mp h2
    · intro hn
      exact List.mem_cons_of_mem _
        (List.mem_append_right _ ((mem_stringsReport_count _ n).mpr hn))
  · constructor
    · intro hmem
      rcases List.mem_cons.mp hmem with h1 | h1
      · cases h1
      rcases List.mem_append.mp h1 with h2 | h2
      · exact absurd h2 (sugg_notin_marker content s r)
      · exact (mem_stringsReport_sugg _ s r).mp h2
    · intro hsr
      exact List.mem_cons_of_mem _
        (List.mem_append_right _ ((mem_stringsReport_sugg _ s r).mpr hsr))

/-- Witness for the amended C2, at the concrete end-to-end scenario file. -/
theorem c2_report_structure_witness :
    OutLine.header "features/auth/screens/RegisterScreen.tsx" ∈
      (checkFile c1Fs "features/auth/screens/RegisterScreen.tsx").2 :=
  (c2_report_structure c1Fs "features/auth/screens/RegisterScreen.tsx" c1Content
    (by decide)).1

/-- Claim C3: for every existing input file, both marker-missing lines are in
the report exactly when the marker substring `useTranslation` is absent from
the file's text; when it is present anywhere, both lines are absent. -/
theorem c3_marker_lines (fs : FS) (p : String) (content : List Char)
    (h : fs p = some content) :
    (containsSub marker content = false →
      OutLine.missingImportLine ∈ (checkFile fs p).2 ∧
      OutLine.missingHookLine ∈ (checkFile fs p).2) ∧
    (containsSub marker content = true →
      OutLine.missingImportLine ∉ (checkFile fs p).2 ∧
      OutLine.missingHookLine ∉ (checkFile fs p).2) := by
  rw [checkFile_exists fs p content h]
  constructor
  · intro hm
    rw [markerReport_missing content hm]
    constructor
    · exact List.mem_cons_of_mem _ (List.mem_append_left _ (List.mem_cons_self _ _))
    · exact List.mem_cons_of_mem _
        (List.mem_append_left _ (List.mem_cons_of_mem _ (List.mem_cons_self _ _)))
  · intro hm
    rw [markerReport_present content hm]
    have hs := missing_notin_strings (find_hardcoded_strings content)
    constructor
    · intro hmem
      rcases List.mem_cons.mp hmem with h1 | h1
      · cases h1
      rcases List.mem_append.mp h1 with h2 | h2
      · simp at h2
      · exact hs.1 h2
    · intro hmem
      rcases List.mem_cons.mp hmem with h1 | h1
      · cases h1
      rcases List.mem_append.mp h1 with h2 | h2
      · simp at h2
      · exact hs.2 h2

/-- Witness for C3: in the scenario file the marker is absent and both
missing lines are present. -/
theorem c3_marker_lines_witness :
    OutLine.missingImportLine ∈
      (checkFile c1Fs "features/auth/screens/RegisterScreen.tsx").2 ∧
    OutLine.missingHookLine ∈
      (checkFile c1Fs "features/auth/screens/RegisterScreen.tsx").2 :=
  (c3_marker_lines c1Fs "features/auth/screens/RegisterScreen.tsx" c1Content
    (by decide)).1 (by decide)

/-- Claim C4: a raw extracted candidate's wrapped form is in the filtered set
returned by `find_hardcoded_strings` exactly when its interior is longer than
2 characters and begins with neither `/` nor `#`; in particular every raw
candidate failing the filter never appears, and every passing one is
retained. -/
theorem c4_filter_exact (content raw : List Char) (h : raw ∈ findRaw content) :
    wrap raw ∈ find_hardcoded_strings content ↔
      (2 < raw.length ∧ startsWithChar '/' raw = false ∧
        startsWithChar '#' raw = false) := by
  rw [mem_find_iff]
  constructor
  · rintro ⟨raw2, -, h2, h3⟩
    obtain rfl : raw2 = raw := wrap_inj raw2 raw h3.symm
    simpa [isUiString, Bool.and_eq_true, Bool.not_eq_true', and_assoc] using h2
  · rintro ⟨h1, h2, h3⟩
    exact ⟨raw, h, by simp [isUiString, h1, h2, h3], rfl⟩

/-- Witness for C4 at a concrete file: the candidate `hello` (interior length
5, no forbidden first character) is retained. -/
theorem c4_filter_exact_witness :
    wrap ("hello".toList) ∈ find_hardcoded_strings filterContent ↔
      (2 < ("hello".toList).length ∧ startsWithChar '/' ("hello".toList) = false ∧
        startsWithChar '#' ("hello".toList) = false) :=
  c4_filter_exact filterContent ("hello".toList) (by decide)

/-- Claim C5: extraction treats a backslash followed by a character as one
escaped unit: whenever the file content is the literal
`"She said \"hi\""` preceded by any quote-free text and followed by anything,
the extracted candidates include the full interior `She said \"hi\"` rather
than a span cut at the first embedded quote. -/
theorem c5_escaped_quote (p s : List Char) (h : '"' ∉ p) :
    escInterior ∈ findRaw (p ++ (escLit ++ s)) := by
  induction p with
  | nil =>
    have hlit : escLit ++ s = '"' :: (escBody ++ s) := by
      have hsplit : escLit = '"' :: escBody := by decide
      rw [hsplit]
      rfl
    rw [List.nil_append, hlit, findRaw_quote_some _ _ _ (escLit_parse s)]
    exact List.mem_cons_self _ _
  | cons c cs ih =>
    have hc : c ≠ '"' := fun hcq => h (hcq ▸ List.mem_cons_self c cs)
    rw [List.cons_append, findRaw_cons_ne c _ hc]
    exact ih (fun hm => h (List.mem_cons_of_mem _ hm))

/-- Witness for C5 at a concrete prefix and suffix. -/
theorem c5_escaped_quote_witness :
    escInterior ∈ findRaw ("x = ".toList ++ (escLit ++ ";".toList)) :=
  c5_escaped_quote ("x = ".toList) (";".toList) (by decide)

/-- Claim C6: table lookup is byte-exact: a suggestion line printed for
candidate `s` means `(s, r)` is literally an entry of `TRANSLATIONS`
(quotes included, character for character); and a candidate differing from
every key yields no suggestion line at all. -/
theorem c6_exact_lookup (fs : FS) (p : String) (content s : List Char)
    (h : fs p = some content) :
    (∀ r, OutLine.suggestion s r ∈ (checkFile fs p).2 → (s, r) ∈ TRANSLATIONS) ∧
    ((∀ kv ∈ TRANSLATIONS, s ≠ kv.1) →
      ∀ r, OutLine.suggestion s r ∉ (checkFile fs p).2) := by
  have hmm : ∀ r, OutLine.suggestion s r ∈ (checkFile fs p).2 →
      lookupT s TRANSLATIONS = some r := by
    intro r hmem
    rw [checkFile_exists fs p content h] at hmem
    rcases List.mem_cons.mp hmem with h1 | h1
    · cases h1
    rcases List.mem_append.mp h1 with h2 | h2
    · exact absurd h2 (sugg_notin_marker content s r)
    · exact ((mem_stringsReport_sugg _ s r).mp h2).2
  constructor
  · intro r hmem
    exact lookupT_mem s r TRANSLATIONS (hmm r hmem)
  · intro hne r hmem
    have := hmm r hmem
    rw [lookupT_eq_none s TRANSLATIONS hne] at this
    cases this

/-- Witness for C6: the candidate `"Welcome Back "` (trailing space) differs
from every key and yields no suggestion in its file's report. -/
theorem c6_exact_lookup_witness :
    OutLine.suggestion ("\"Welcome Back \"".toList) ("t('auth.welcomeBack')".toList) ∉
      (checkFile trailingSpaceFs "app/(tabs)/cases.tsx").2 :=
  (c6_exact_lookup trailingSpaceFs "app/(tabs)/cases.tsx"
      ("x = \"Welcome Back \";".toList) ("\"Welcome Back \"".toList) (by decide)).2
    (by decide) ("t('auth.welcomeBack')".toList)

/-- Claim C7: the filtered candidate list of one file has no duplicate
elements, so any literal occurring several times in the text contributes
exactly 1 to the distinct-candidate count. -/
theorem c7_dedup (content : List Char) :
    (find_hardcoded_strings content).Nodup ∧
    ∀ s ∈ find_hardcoded_strings content,
      countOcc s (find_hardcoded_strings content) = 1 := by
  have hnd : (find_hardcoded_strings content).Nodup := List.nodup_dedup _
  refine ⟨hnd, fun s hs => ?_⟩
  have := countOcc_eq_one (find_hardcoded_strings content) hnd s hs
  exact this

/-- Claim C8: a path the file system does not hold produces no output at all —
not even a header — and the run over the remaining paths is unaffected. -/
theorem c8_nonexistent_silent (fs : FS) (p : String) (ps : List String)
    (h : fs p = none) :
    checkFile fs p = (fs, []) ∧ runAll fs (p :: ps) = runAll fs ps := by
  have h1 := checkFile_missing fs p h
  refine ⟨h1, ?_⟩
  rw [runAll_cons, h1]
  simp

/-- Witness for C8 on the empty file system. -/
theorem c8_nonexistent_silent_witness :
    checkFile noneFs "nope.tsx" = (noneFs, []) ∧
    runAll noneFs ("nope.tsx" :: ["app/(tabs)/index.tsx"]) =
      runAll noneFs ["app/(tabs)/index.tsx"] :=
  c8_nonexistent_silent noneFs "nope.tsx" ["app/(tabs)/index.tsx"] rfl

/-- Claim C9: the tool is strictly read-only: checking one file and running
the whole file list return the file system unchanged (the embedding threads
the file system through every operation, and the source only ever opens files
for reading). -/
theorem c9_read_only (fs : FS) (p : String) (ps : List String) :
    (checkFile fs p).1 = fs ∧ (runAll fs ps).1 = fs := by
  refine ⟨checkFile_fst fs p, ?_⟩
  induction ps generalizing fs with
  | nil => rfl
  | cons q qs ih =>
    rw [runAll_cons]
    show (runAll (checkFile fs q).1 qs).1 = fs
    rw [ih ((checkFile fs q).1), checkFile_fst]

/-- Claim C10: the `"OK"` table entry is unreachable: no report ever contains
a suggestion line carrying the replacement `t('common.ok')`, because every
filtered candidate has interior length above 2 (wrapped length above 4) while
the only key mapped to that replacement has wrapped length 4. -/
theorem c10_ok_entry_unreachable (fs : FS) (p : String) (s : List Char) :
    OutLine.suggestion s ("t('common.ok')".toList) ∉ (checkFile fs p).2 := by
  intro hmem
  cases hfs : fs p with
  | none =>
      rw [checkFile_missing fs p hfs] at hmem
      cases hmem
  | some content =>
      rw [checkFile_exists fs p content hfs] at hmem
      rcases List.mem_cons.mp hmem with h1 | h1
      · cases h1
      rcases List.mem_append.mp h1 with h2 | h2
      · exact sugg_notin_marker content s _ h2
      · obtain ⟨htake, hlook⟩ := (mem_stringsReport_sugg _ s _).mp h2
        have hmemf : s ∈ find_hardcoded_strings content := List.mem_of_mem_take htake
        have hlen : 4 < s.length := mem_find_length content s hmemf
        have hpair := lookupT_mem s _ TRANSLATIONS hlook
        have hshort : ∀ kv ∈ TRANSLATIONS,
            kv.2 = "t('common.ok')".toList → kv.1.length ≤ 4 := by decide
        have h4 : s.length ≤ 4 := by
          simpa using hshort (s, "t('common.ok')".toList) hpair rfl
        omega

end I18n
